import Mathlib

/-!
# cgit log and tag views: a shallow embedding of `ui-log.c` and `ui-tag.c`

C strings are lists of characters (the terminating NUL is implicit), a
`NULL` pointer is `none`, and C `int`s are unbounded integers (the counters
and offsets of these two files stay far from the machine range on any
history that can be walked).  Output is recorded as the sequence of calls
to the `html` layer instead of the bytes those calls write.  What git
supplies is a parameter: the character class `isspace`, the lookup
`get_sha1`, the revision walk set up by `setup_revisions`, and the graph
layout engine.
-/

set_option linter.unusedVariables false

namespace Cgit

/-- A NUL-terminated C string, without its terminator. -/
abbrev CStr := List Char

/-- One call into the output layer (`html.h`, `ui-shared.h`).  Link builders
keep the arguments that vary between call sites of the two files: `name`,
`class`, `head`, `rev` and `ofs`; title, path and the search parameters are
taken from the request context at each call. -/
inductive Html where
  /-- Call of `html(s)` or `htmlf(...)` with markup `s`. -/
  | html (s : CStr)
  /-- Call of `html_txt(s)`: `s` is escaped by the output layer. -/
  | html_txt (s : CStr)
  /-- Call of `html(graphbuf.buf)`: one line of the lane drawing. -/
  | graph (line : CStr)
  /-- Call of `htmlf` printing one integer with `%d`. -/
  | int (n : Int)
  /-- Call of `cgit_print_age(date, ...)` inside the link to the commit. -/
  | age (rev : CStr) (date : Int)
  /-- Call of `cgit_log_link(name, NULL, class, head, rev, ..., ofs, ...)`. -/
  | log_link (name : CStr) (cls : Option CStr) (head rev : Option CStr) (ofs : Int)
  /-- Call of `cgit_tag_link(name, NULL, class, head, tag)`. -/
  | tag_link (name : CStr) (cls : Option CStr) (head : CStr) (tag : CStr)
  /-- Call of `cgit_commit_link(name, NULL, class, head, rev, ...)`. -/
  | commit_link (name : CStr) (cls : Option CStr) (head : CStr) (rev : CStr)
  deriving DecidableEq, Repr

/-! ## ui-tag.c -/

/-- The C library `strchr(s, c)`: offset of the first `c` in `s`, `none`
for a `NULL` result. -/
def strchr (c : Char) : CStr → Option Nat
  | [] => none
  | x :: xs => if x = c then some 0 else (strchr c xs).map (· + 1)

/-- `print_tag_content` (ui-tag.c:14-32).  `*p = 0` cuts `buf` at offset `p`,
`++p` is the text from offset `p + 1`. -/
def print_tag_content (buf : Option CStr) : List Html :=
  match buf with
  | none => []
  | some b =>
    match strchr '\n' b with
    | none =>
      [Html.html "<div class='commit-subject'>".toList, Html.html_txt b,
       Html.html "</div>".toList]
    | some p =>
      [Html.html "<div class='commit-subject'>".toList, Html.html_txt (b.take p),
       Html.html "</div>".toList,
       Html.html "<div class='commit-msg'>".toList, Html.html_txt (b.drop (p + 1)),
       Html.html "</div>".toList]

/-! ## ui-log.c: decorations -/

/-- The git library `prefixcmp(str, prefix)`: walks both strings and returns
0 when `prefix` ends first, else the difference of the first differing
bytes (`*str` is NUL, that is 0, when `str` ends first). -/
def prefixcmp : CStr → CStr → Int
  | _, [] => 0
  | [], p :: _ => (p.toNat : Int)
  | s :: ss, p :: ps => if s ≠ p then (p.toNat : Int) - (s.toNat : Int) else prefixcmp ss ps

/-- The `strncpy(buf, src, sizeof(buf) - 1)` into the 1024-byte scratch
buffer whose last byte is kept 0. -/
def strncpy_buf (src : CStr) : CStr := src.take 1023

/-- One iteration of the `while (deco)` loop of `show_commit_decorations`
(ui-log.c:63-92) on the ref name `name`, for a commit with hex id `sha1`
and the request head `head`: the link emitted. -/
def decorate (head sha1 name : CStr) : Html :=
  if prefixcmp name "refs/heads/".toList = 0 then
    let buf := strncpy_buf (name.drop 11)
    Html.log_link buf (some "branch-deco".toList) (some buf) none 0
  else if prefixcmp name "tag: refs/tags/".toList = 0 then
    let buf := strncpy_buf (name.drop 15)
    Html.tag_link buf (some "tag-deco".toList) head buf
  else if prefixcmp name "refs/tags/".toList = 0 then
    let buf := strncpy_buf (name.drop 10)
    Html.tag_link buf (some "tag-deco".toList) head buf
  else if prefixcmp name "refs/remotes/".toList = 0 then
    let buf := strncpy_buf (name.drop 13)
    Html.log_link buf (some "remote-deco".toList) none (some sha1) 0
  else
    let buf := strncpy_buf name
    Html.commit_link buf (some "deco".toList) head sha1

/-- `show_commit_decorations` (ui-log.c:56-93): the links emitted for the
decoration list `decos` of a commit, in list order. -/
def show_commit_decorations (head sha1 : CStr) (decos : List CStr) : List Html :=
  decos.map (decorate head sha1)

/-! ## Decorations as the specification describes them -/

/-- The kinds of decoration of the specification. -/
inductive Kind where
  | Branch | AnnotatedTag | LightweightTag | Remote | Other
  deriving DecidableEq, Repr

/-- The classification of the specification: the first recognized namespace
of the ref name, in the order `refs/heads/`, `tag: refs/tags/`, `refs/tags/`,
`refs/remotes/`, and Other for every other name. -/
def classify (name : CStr) : Kind :=
  if "refs/heads/".toList <+: name then Kind.Branch
  else if "tag: refs/tags/".toList <+: name then Kind.AnnotatedTag
  else if "refs/tags/".toList <+: name then Kind.LightweightTag
  else if "refs/remotes/".toList <+: name then Kind.Remote
  else Kind.Other

/-- The label of the specification: the ref name without its recognized
namespace, the full name for kind Other. -/
def deco_label (name : CStr) : CStr :=
  match classify name with
  | Kind.Branch => name.drop "refs/heads/".toList.length
  | Kind.AnnotatedTag => name.drop "tag: refs/tags/".toList.length
  | Kind.LightweightTag => name.drop "refs/tags/".toList.length
  | Kind.Remote => name.drop "refs/remotes/".toList.length
  | Kind.Other => name

/-- The badge of the specification for a decoration of kind `k` with display
label `label`: a branch links to the log of that branch, a tag of either
kind to the tag view, a remote to the log of the commit, and anything else
to the commit itself. -/
def badge (head sha1 : CStr) (k : Kind) (label : CStr) : Html :=
  match k with
  | Kind.Branch => Html.log_link label (some "branch-deco".toList) (some label) none 0
  | Kind.AnnotatedTag => Html.tag_link label (some "tag-deco".toList) head label
  | Kind.LightweightTag => Html.tag_link label (some "tag-deco".toList) head label
  | Kind.Remote => Html.log_link label (some "remote-deco".toList) none (some sha1) 0
  | Kind.Other => Html.commit_link label (some "deco".toList) head sha1

/-- The four prefix tests of `show_commit_decorations` with the kind each
stands for, in source order. -/
def deco_tests : List (CStr × Kind) :=
  [("refs/heads/".toList, Kind.Branch),
   ("tag: refs/tags/".toList, Kind.AnnotatedTag),
   ("refs/tags/".toList, Kind.LightweightTag),
   ("refs/remotes/".toList, Kind.Remote)]

/-- The `if` chain of `show_commit_decorations` with its prefix tests run in
the order of `tests`: the first test that matches strips its prefix and
emits the badge of its kind, and a name that matches none is emitted whole
as Other. -/
def decorate_in_order (tests : List (CStr × Kind)) (head sha1 name : CStr) : Html :=
  match tests.find? (fun t => prefixcmp name t.1 = 0) with
  | some t => badge head sha1 t.2 (strncpy_buf (name.drop t.1.length))
  | none => badge head sha1 Kind.Other (strncpy_buf name)

/-! ## ui-log.c: data consumed from git and from the request context -/

/-- One changed file pair of a diff: the lines `cgit_diff_files` hands to its
line callback for the pair, each with its byte count as `size`. -/
structure diff_filepair where
  lines : List CStr
  deriving DecidableEq, Repr

/-- What the log view reads of a commit: the hex object id, the fields of
`cgit_parse_commit`, the text `format_note` appends for it, the names
`lookup_decoration` returns and the file pairs `cgit_diff_commit` enumerates
(the diff against the first parent under the path filter). -/
structure Commit where
  sha1 : CStr
  date : Int
  subject : CStr
  author : CStr
  msg : Option CStr
  notes : CStr
  decorations : List CStr
  diff : List diff_filepair
  deriving DecidableEq, Repr

/-- The fields of `ctx.repo` and `ctx.qry` the log view reads. -/
structure Ctx where
  enable_log_filecount : Bool
  enable_log_linecount : Bool
  enable_commit_graph : Bool
  showmsg : Bool
  head : CStr
  sha1 : Option CStr
  ofs : Int
  deriving DecidableEq, Repr

/-- The process-wide `int files, add_lines, rem_lines` (ui-log.c:14). -/
structure Counters where
  files : Int
  add_lines : Int
  rem_lines : Int
  deriving DecidableEq, Repr

/-! ## ui-log.c: diff statistics -/

/-- `count_lines` (ui-log.c:31-41). -/
def count_lines (line : CStr) (size : Int) (st : Counters) : Counters :=
  if size ≤ 0 then st
  else if line.head? = some '+' then
    Counters.mk st.files (st.add_lines + 1) st.rem_lines
  else if line.head? = some '-' then
    Counters.mk st.files st.add_lines (st.rem_lines + 1)
  else st

/-- Modelled from the spec: the diff engine entry `cgit_diff_files(..., fn)`,
which is defined outside `ui-log.c`.  Given a file pair it produces the diff lines
of the pair and calls the line callback `fn` on each, in order, with the
line and its size. -/
def cgit_diff_files (pair : diff_filepair) (fn : CStr → Int → Counters → Counters)
    (st : Counters) : Counters :=
  pair.lines.foldl (fun acc line => fn line (line.length : Int) acc) st

/-- `inspect_files` (ui-log.c:43-54). -/
def inspect_files (ctx : Ctx) (pair : diff_filepair) (st : Counters) : Counters :=
  let st1 := Counters.mk (st.files + 1) st.add_lines st.rem_lines
  if ctx.enable_log_linecount then cgit_diff_files pair count_lines st1 else st1

/-- Modelled from the spec: the diff engine entry
`cgit_diff_commit(commit, fn, prefix)`, which is defined outside `ui-log.c`.  It
produces the changed file pairs between the commit and its first parent
under the path filter and calls the file-pair callback `fn` on each, in
order. -/
def cgit_diff_commit (commit : Commit) (fn : diff_filepair → Counters → Counters)
    (st : Counters) : Counters :=
  commit.diff.foldl (fun acc pair => fn pair acc) st

/-! ## ui-log.c: the graph layout engine (git `graph.h`) -/

/-- Result of one `graph_next_line(graph, &sb)` on an empty `sb`: the new
engine state, the line written to `sb`, and the return value (nonzero when
the line is the one that shows the current commit). -/
structure NextLine (σ : Type) where
  state : σ
  line : CStr
  shown_commit_line : Bool

/-- The layout engine behind `revs->graph`.  The renderer drives it in two
loops that have no bound of their own, so an engine comes with what makes
these loops end.  `pending` holds in the states where a commit has been fed
to the graph and its line has not been shown yet: `graph_update` leads
there, and from there `fill_rank` falls with every line that is not yet the
commit line.  `pad_rank` falls with every line pulled while the commit is
not finished. -/
structure GraphEngine where
  State : Type
  graph_update : State → Commit → State
  graph_next_line : State → NextLine State
  graph_is_commit_finished : State → Bool
  pending : State → Prop
  fill_rank : State → Nat
  pad_rank : State → Nat
  update_pending : ∀ s c, pending (graph_update s c)
  fill_dec : ∀ s, pending s → (graph_next_line s).shown_commit_line = false →
    pending (graph_next_line s).state ∧ fill_rank (graph_next_line s).state < fill_rank s
  pad_dec : ∀ s, graph_is_commit_finished s = false →
    pad_rank (graph_next_line s).state < pad_rank s

/-- A graph state in which the line of the current commit is still to come:
the state `revs->graph` is in when `get_revision` has returned a commit. -/
abbrev GraphEngine.Pending (E : GraphEngine) : Type := { g : E.State // E.pending g }

/-! ## ui-log.c: table rows -/

/-- One `<td>` or `<th>` element: `colspan` is 1 when the attribute is
absent. -/
structure Cell where
  header : Bool
  cls : Option CStr
  colspan : Int
  body : List Html
  deriving DecidableEq, Repr

/-- One `<tr>` element. -/
structure Row where
  cls : Option CStr
  cells : List Cell
  deriving DecidableEq, Repr

/-- Number of table columns a row covers, each cell counted with its
colspan. -/
def Row.width (r : Row) : Int := (r.cells.map Cell.colspan).sum

/-- The local `cols` of `print_commit` (ui-log.c:99-106). -/
def print_commit_cols (ctx : Ctx) : Int :=
  let cols : Int := 2
  if ctx.enable_log_filecount then
    if ctx.enable_log_linecount then cols + 1 + 1 else cols + 1
  else cols

/-- Result of the loop that advances the graph to the current commit. -/
structure FillResult (σ : Type) where
  state : σ
  graphbuf : CStr
  rows : List Row

/-- The loop `while (!graph_next_line(revs->graph, &graphbuf))` of
`print_commit` (ui-log.c:110-116): every line before the commit line is
printed in a table row of its own; the commit line is left in `graphbuf`. -/
def fill_loop (E : GraphEngine) (cols : Int) (g : E.State) (hp : E.pending g) :
    FillResult E.State :=
  if h : (E.graph_next_line g).shown_commit_line = false then
    let rest := fill_loop E cols (E.graph_next_line g).state (E.fill_dec g hp h).1
    FillResult.mk rest.state rest.graphbuf
      (Row.mk (some "nohover".toList)
        [Cell.mk false none 1 [],
         Cell.mk false (some "commitgraph".toList) 1 [Html.graph (E.graph_next_line g).line],
         Cell.mk false none cols []] :: rest.rows)
  else
    FillResult.mk (E.graph_next_line g).state (E.graph_next_line g).line []
termination_by E.fill_rank g
decreasing_by exact (E.fill_dec g hp h).2

/-- Result of the graph padding loop: the engine state, the lines pulled
with `graph_next_line`, and the calls to `html`. -/
structure PadResult (σ : Type) where
  state : σ
  pulled : List CStr
  out : List Html

/-- The loop `while (lines > 0 || !graph_is_commit_finished(revs->graph))`
of `print_commit` (ui-log.c:191-198); `graphbuf` is the buffer content left
by the previous pull. -/
def pad_loop (E : GraphEngine) (lines : Int) (g : E.State) (graphbuf : CStr) :
    PadResult E.State :=
  if h : 0 < lines ∨ E.graph_is_commit_finished g = false then
    let sep := if graphbuf.length ≠ 0 then [Html.html "\n".toList] else []
    let rest := pad_loop E (lines - 1) (E.graph_next_line g).state (E.graph_next_line g).line
    PadResult.mk rest.state ((E.graph_next_line g).line :: rest.pulled)
      (sep ++ Html.graph (E.graph_next_line g).line :: rest.out)
  else
    PadResult.mk g [] []
termination_by (lines.toNat, E.pad_rank g)
decreasing_by
  by_cases hl : 0 < lines
  · exact Prod.Lex.left _ _ (by omega)
  · have hf : E.graph_is_commit_finished g = false := by
      rcases h with h | h
      · exact absurd h hl
      · exact h
    have e : (lines - 1).toNat = lines.toNat := by omega
    rw [e]
    exact Prod.Lex.right _ (E.pad_dec g hf)

/-- The git library `strbuf_ltrim`: drops the leading bytes that `isspace`
accepts. -/
def strbuf_ltrim (isspace : Char → Bool) (sb : CStr) : CStr := sb.dropWhile isspace

/-- The line count of `print_commit` (ui-log.c:181-186): `lines` starts at 1
and grows by one for every newline `strchr` finds from `p` on. -/
def count_msg_lines (p : CStr) (lines : Int) : Int :=
  match h : strchr '\n' p with
  | none => lines
  | some i => count_msg_lines (p.drop (i + 1)) (lines + 1)
termination_by p.length
decreasing_by
  have hp : p ≠ [] := by
    intro e
    subst e
    simp [strchr] at h
  have : 0 < p.length := List.length_pos.2 hp
  simp only [List.length_drop]
  omega

/-- The content of `msgbuf` (ui-log.c:162-173): empty unless messages are
shown, else message and newline (for a message that is present and not
empty), the notes `format_note` appends, one more newline, left-trimmed. -/
def build_msgbuf (isspace : Char → Bool) (ctx : Ctx) (commit : Commit) : CStr :=
  if ctx.showmsg then
    let m : CStr :=
      match commit.msg with
      | some (c :: cs) => (c :: cs) ++ ['\n']
      | _ => []
    strbuf_ltrim isspace (m ++ commit.notes ++ ['\n'])
  else []

/-- What `print_commit` leaves behind: the engine state, the global counters
and the table rows written, which are the rows with the graph lines that
come before the commit, the row of the commit, and the second row when there
is one. -/
structure PrintResult (σ : Type) where
  graph : Option σ
  counters : Counters
  filler : List Row
  first : Row
  second : Option Row

/-- The rows `print_commit` wrote, in output order. -/
def PrintResult.rows {σ : Type} (r : PrintResult σ) : List Row :=
  r.filler ++ [r.first] ++ r.second.toList

/-- The cells for the file and line counts (ui-log.c:144-155), with the
counters after the diff of the commit was inspected. -/
def stat_cells (ctx : Ctx) (commit : Commit) (st : Counters) : Counters × List Cell :=
  if ctx.enable_log_filecount then
    let st1 := cgit_diff_commit commit (inspect_files ctx) (Counters.mk 0 0 0)
    let files_cell := Cell.mk false none 1 [Html.int st1.files]
    if ctx.enable_log_linecount then
      (st1, [files_cell,
        Cell.mk false none 1
          [Html.html "-".toList, Html.int st1.rem_lines,
           Html.html "/+".toList, Html.int st1.add_lines]])
    else (st1, [files_cell])
  else (st, [])

/-- `print_commit` (ui-log.c:95-212); `graph` is `revs->graph`, in the state
`get_revision` left it in when it returned `commit`. -/
def print_commit (isspace : Char → Bool) (E : GraphEngine) (ctx : Ctx) (commit : Commit)
    (graph : Option E.Pending) (st : Counters) : PrintResult E.State :=
  let cols := print_commit_cols ctx
  -- if (revs->graph): advance graph until current commit
  let fill : Option (FillResult E.State) := graph.map fun g => fill_loop E cols g.1 g.2
  let fill_rows : List Row := match fill with
    | some f => f.rows
    | none => []
  -- if (revs->graph): print graph segment for current commit
  let graph_cell : List Cell := match fill with
    | some f => [Cell.mk false (some "commitgraph".toList) 1 [Html.graph f.graphbuf]]
    | none => []
  let stats := stat_cells ctx commit st
  let row1 : Row :=
    Row.mk (if ctx.showmsg then some "logheader".toList else none)
      ([Cell.mk false none 1 [Html.age commit.sha1 commit.date]] ++ graph_cell ++
       [Cell.mk false (if ctx.showmsg then some "logsubject".toList else none) 1
          (Html.commit_link commit.subject none ctx.head commit.sha1 ::
            show_commit_decorations ctx.head commit.sha1 commit.decorations),
        Cell.mk false none 1 [Html.html_txt commit.author]] ++ stats.2)
  if graph.isSome || ctx.showmsg then
    -- Print a second table row
    let msgbuf := build_msgbuf isspace ctx commit
    -- if (revs->graph): calculate and print graph padding
    let pad : Option (PadResult E.State) := fill.map fun f =>
      let lines : Int := if ctx.showmsg then count_msg_lines msgbuf 1 else 0
      pad_loop E lines f.state []
    let pad_cell : List Cell := match pad with
      | some p => [Cell.mk false (some "commitgraph".toList) 1 p.out]
      | none => []
    let row2 : Row :=
      Row.mk (some "nohover".toList)
        ([Cell.mk false none 1 []] ++ pad_cell ++
         [Cell.mk false (if ctx.showmsg then some "logmsg".toList else none) cols
            [Html.html "\n".toList, Html.html_txt msgbuf]])
    PrintResult.mk (pad.map PadResult.state) stats.1 fill_rows row1 (some row2)
  else
    PrintResult.mk (fill.map FillResult.state) stats.1 fill_rows row1 none

/-! ## ui-log.c: the revision walk and `cgit_print_log` -/

/-- The part of `struct rev_info` the log view uses after
`prepare_revision_walk`: the commits the walk still has to return, and the
graph state when `--graph` was set up. -/
structure RevInfo (σ : Type) where
  commits : List Commit
  graph : Option σ

/-- What a successful `get_revision` yields: the commit returned, the
commits the walk still has to return, and the graph, to which the commit has
been fed. -/
structure Pulled (E : GraphEngine) where
  commit : Commit
  commits : List Commit
  graph : Option E.Pending

/-- The git library `get_revision`: returns the next commit of the walk,
after feeding it to the graph with `graph_update`, or NULL (`none`) at the
end of the walk, which leaves the walk as it is. -/
def get_revision (E : GraphEngine) (rev : RevInfo E.State) : Option (Pulled E) :=
  match rev.commits with
  | [] => none
  | c :: rest =>
    some (Pulled.mk c rest
      (rev.graph.map fun g => Subtype.mk (E.graph_update g c) (E.update_pending g c)))

/-- `disambiguate_ref` (ui-log.c:214-224); `get_sha1` returns 0 when the
name resolves. -/
def disambiguate_ref (get_sha1 : CStr → Int) (ref : CStr) : CStr :=
  let longref := "refs/heads/".toList ++ ref
  if get_sha1 longref = 0 then longref else ref

/-- `next_token` (ui-log.c:226-246) on a non-NULL `*src`: the token
returned (NULL as `none`) and the new value of `*src`.  The byte after the
token, which the source overwrites with NUL, is skipped. -/
def next_token (isspace : Char → Bool) (src : CStr) : Option CStr × CStr :=
  match src.dropWhile isspace with
  | [] => (none, [])
  | c :: cs =>
    (some ((c :: cs).takeWhile fun x => !isspace x),
     ((c :: cs).dropWhile fun x => !isspace x).drop 1)

/-- Result of splitting a range pattern: the revision expressions pushed,
and the token reported on stderr as a bad range expression, if any. -/
structure RangeResult where
  args : List CStr
  bad : Option CStr
  deriving DecidableEq, Repr

/-- The loop `while ((arg = next_token(&pattern)))` of `cgit_print_log`
(ui-log.c:279-286). -/
def range_loop (isspace : Char → Bool) (pattern : CStr) : RangeResult :=
  match h : next_token isspace pattern with
  | (none, _) => RangeResult.mk [] none
  | (some arg, rest) =>
    if arg.head? = some '-' then RangeResult.mk [] (some arg)
    else
      let r := range_loop isspace rest
      RangeResult.mk (arg :: r.args) r.bad
termination_by pattern.length
decreasing_by
  unfold next_token at h
  have hle := (List.dropWhile_sublist isspace (l := pattern)).length_le
  cases hs : pattern.dropWhile isspace with
  | nil => simp [hs] at h
  | cons c cs =>
    rw [hs] at h hle
    simp only [Prod.mk.injEq, Option.some.injEq] at h
    obtain ⟨_, rfl⟩ := h
    have h2 := (List.dropWhile_sublist (fun x => !isspace x) (l := c :: cs)).length_le
    simp only [List.length_drop, List.length_cons] at *
    omega

/-- The argument vector `cgit_print_log` builds for `setup_revisions`
(ui-log.c:257-306), with the token rejected by the range parser. -/
def log_argv (isspace : Char → Bool) (get_sha1 : CStr → Int) (ctx : Ctx)
    (tip grep pattern path : Option CStr) : List (Option CStr) × Option CStr :=
  -- First argv is NULL
  let vec0 : List (Option CStr) := [none]
  let tip1 : CStr := disambiguate_ref get_sha1 (tip.getD ctx.head)
  let vec1 := vec0 ++ [some tip1]
  let filt : List (Option CStr) × Option CStr :=
    match grep, pattern with
    | some g, some (p :: ps) =>
      let vec2 :=
        if g = "grep".toList ∨ g = "author".toList ∨ g = "committer".toList then
          vec1 ++ [some ("--".toList ++ g ++ "=".toList ++ (p :: ps))]
        else vec1
      if g = "range".toList then
        let r := range_loop isspace (p :: ps)
        (vec2.dropLast ++ r.args.map some, r.bad)
      else (vec2, none)
    | _, _ => (vec1, none)
  let vec3 :=
    if ctx.enable_commit_graph then
      filt.1 ++ [some "--graph".toList, some "--color".toList]
    else filt.1
  let vec4 :=
    match path with
    | some p => vec3 ++ [some "--".toList, some p]
    | none => vec3
  (vec4, filt.2)

/-- The header row of the log table (ui-log.c:323-344) and the local
`columns`. -/
def log_header (ctx : Ctx) (pager : Bool) : Row × Int :=
  let columns : Int := 3
  let age := [Cell.mk true (some "left".toList) 1 [Html.html "Age".toList]]
  let graph := if ctx.enable_commit_graph then [Cell.mk true none 1 []] else []
  let toggle : List Html :=
    if pager then
      [Html.html " (".toList,
       Html.log_link (if ctx.showmsg then "Collapse".toList else "Expand".toList) none
         (some ctx.head) ctx.sha1 ctx.ofs,
       Html.html ")".toList]
    else []
  let msg := [Cell.mk true (some "left".toList) 1 (Html.html "Commit message".toList :: toggle),
              Cell.mk true (some "left".toList) 1 [Html.html "Author".toList]]
  let files := Cell.mk true (some "left".toList) 1 [Html.html "Files".toList]
  let lines := Cell.mk true (some "left".toList) 1 [Html.html "Lines".toList]
  if ctx.enable_log_filecount then
    if ctx.enable_log_linecount then
      (Row.mk (some "nohover".toList) (age ++ graph ++ msg ++ [files, lines]), columns + 1 + 1)
    else
      (Row.mk (some "nohover".toList) (age ++ graph ++ msg ++ [files]), columns + 1)
  else
    (Row.mk (some "nohover".toList) (age ++ graph ++ msg), columns)

/-- One piece of the output of `cgit_print_log`. -/
inductive Item where
  /-- Markup outside the table rows. -/
  | html (s : CStr)
  /-- A table row written by `cgit_print_log` itself. -/
  | row (r : Row)
  /-- A call `print_commit(commit, &rev)` with the rows it wrote. -/
  | commit (c : Commit) (rows : List Row)
  /-- A pager link. -/
  | link (l : Html)
  deriving DecidableEq, Repr

/-- The loop that skips `ofs` commits (ui-log.c:349-354), from loop counter
`i`. -/
def skip_loop (E : GraphEngine) (ofs : Int) (i : Int) (rev : RevInfo E.State) :
    RevInfo E.State :=
  if h : i < ofs then
    match get_revision E rev with
    | some p => skip_loop E ofs (i + 1) (RevInfo.mk p.commits (p.graph.map Subtype.val))
    | none => rev
  else rev
termination_by (ofs - i).toNat
decreasing_by omega

/-- State after the rendering loop. -/
structure RenderResult (σ : Type) where
  rev : RevInfo σ
  counters : Counters
  out : List Item

/-- The loop that renders up to `cnt` commits (ui-log.c:356-362), from loop
counter `i`. -/
def render_loop (isspace : Char → Bool) (E : GraphEngine) (ctx : Ctx) (cnt : Int) (i : Int)
    (rev : RevInfo E.State) (st : Counters) : RenderResult E.State :=
  if h : i < cnt then
    match get_revision E rev with
    | some p =>
      let pr := print_commit isspace E ctx p.commit p.graph st
      let rest := render_loop isspace E ctx cnt (i + 1) (RevInfo.mk p.commits pr.graph)
        pr.counters
      RenderResult.mk rest.rev rest.counters (Item.commit p.commit pr.rows :: rest.out)
    | none => RenderResult.mk rev st []
  else RenderResult.mk rev st []
termination_by (cnt - i).toNat
decreasing_by omega

/-- What `cgit_print_log` did: the arguments given to `setup_revisions`, the
range token reported as bad, the local `columns`, the output, and the
counters left in the globals. -/
structure LogResult where
  argv : List (Option CStr)
  bad_range : Option CStr
  columns : Int
  out : List Item
  counters : Counters

/-- `cgit_print_log` (ui-log.c:248-385).  `setup_revisions` stands for the
git calls from `init_revisions` to `prepare_revision_walk`: it turns the
argument vector into the walk. -/
def cgit_print_log (isspace : Char → Bool) (E : GraphEngine) (get_sha1 : CStr → Int)
    (setup_revisions : List (Option CStr) → RevInfo E.State) (ctx : Ctx) (st : Counters)
    (tip : Option CStr) (ofs cnt : Int) (grep pattern path : Option CStr) (pager : Bool) :
    LogResult :=
  let av := log_argv isspace get_sha1 ctx tip grep pattern path
  let rev0 := setup_revisions av.1
  let table_open : List Item :=
    if pager then [Item.html "<table class='list nowrap'>".toList] else []
  let hdr := log_header ctx pager
  let ofs1 : Int := if ofs < 0 then 0 else ofs
  let rev1 := skip_loop E ofs1 0 rev0
  let rr := render_loop isspace E ctx cnt 0 rev1 st
  let tail : List Item :=
    if pager then
      let prev : List Item :=
        if ofs1 > 0 then
          [Item.link (Html.log_link "[prev]".toList none (some ctx.head) ctx.sha1 (ofs1 - cnt)),
           Item.html "&nbsp;".toList]
        else []
      let next : List Item :=
        match get_revision E rr.rev with
        | some _ =>
          [Item.link (Html.log_link "[next]".toList none (some ctx.head) ctx.sha1 (ofs1 + cnt))]
        | none => []
      [Item.html "</table><div class='pager'>".toList] ++ prev ++ next ++
        [Item.html "</div>".toList]
    else
      match get_revision E rr.rev with
      | some _ =>
        [Item.row (Row.mk (some "nohover".toList)
          [Cell.mk false none 3 [Html.log_link "[...]".toList none (some ctx.head) none 0]])]
      | none => []
  LogResult.mk av.1 av.2 hdr.2
    (table_open ++ [Item.row hdr.1] ++ rr.out ++ tail) rr.counters

/-- The commits handed to `print_commit`, in call order. -/
def rendered (out : List Item) : List Commit :=
  out.filterMap fun it =>
    match it with
    | Item.commit c _ => some c
    | _ => none

/-- The offsets of the pager links called `name`, in output order. -/
def pager_links (name : CStr) (out : List Item) : List Int :=
  out.filterMap fun it =>
    match it with
    | Item.link (Html.log_link n _ _ _ ofs) => if n = name then some ofs else none
    | _ => none

/-! ## Reference notions used to state the properties -/

/-- Number of diff lines of the file pairs in `diff` that are not empty and
start with the character `c`. -/
def lines_starting (c : Char) (diff : List diff_filepair) : Nat :=
  (diff.map fun p => p.lines.countP fun l => l.head? = some c).sum

/-- The maximal runs of bytes of `pattern` that `isspace` rejects, in
order: the pieces between the whitespace bytes, without the empty ones. -/
def ws_tokens (isspace : Char → Bool) (pattern : CStr) : List CStr :=
  (pattern.splitOnP isspace).filter fun t => !t.isEmpty

/-! ## Sample inputs -/

/-- A synthetic layout engine whose state counts the lines pulled since the
last commit was fed to it: the line pulled in state `fillers` is the commit
line, and the commit counts as finished in the states where `fin` holds,
which is all states from `bound` on. -/
def synth_engine (fillers : Nat) (fin : Nat → Bool) (bound : Nat)
    (hb : ∀ k, bound ≤ k → fin k = true) : GraphEngine where
  State := Nat
  graph_update := fun _ _ => 0
  graph_next_line := fun k => NextLine.mk (k + 1) (List.replicate (k + 1) '|') (k == fillers)
  graph_is_commit_finished := fin
  pending := fun k => k ≤ fillers
  fill_rank := fun k => fillers - k
  pad_rank := fun k => bound - k
  update_pending := fun _ _ => Nat.zero_le _
  fill_dec := by
    intro s hp h
    simp only [beq_eq_false_iff_ne, ne_eq] at h
    have hlt : s < fillers := by omega
    exact ⟨hlt, show fillers - (s + 1) < fillers - s by omega⟩
  pad_dec := by
    intro s h
    have hlt : s < bound := by
      by_contra hc
      rw [hb s (by omega)] at h
      exact Bool.noConfusion h
    show bound - (s + 1) < bound - s
    omega

/-- The state of a synthetic engine when a commit has just been fed to it. -/
def synth_start (fillers : Nat) (fin : Nat → Bool) (bound : Nat)
    (hb : ∀ k, bound ≤ k → fin k = true) : (synth_engine fillers fin bound hb).Pending :=
  Subtype.mk (0 : Nat) (Nat.zero_le fillers)

/-- An engine without filler lines whose commits are finished at once. -/
def idle_engine : GraphEngine := synth_engine 0 (fun _ => true) 0 (fun _ _ => rfl)

/-- The idle engine when a commit has just been fed to it. -/
def idle_start : idle_engine.Pending := synth_start 0 (fun _ => true) 0 (fun _ _ => rfl)

/-- A request context with file and line counts on, graph and messages off. -/
def sample_ctx : Ctx :=
  Ctx.mk true true false false "master".toList none 0

/-- A commit that changes two files: two added lines, one removed line, one
context line and one empty line. -/
def sample_commit : Commit :=
  Commit.mk "1f3a".toList 1700000000 "Fix the pager".toList "A U Thor".toList
    (some "hello".toList) [] ["refs/heads/master".toList]
    [diff_filepair.mk ["+a".toList, "-b".toList, " c".toList, []],
     diff_filepair.mk ["+x".toList]]

/-- A request context with the commit graph on and everything else off. -/
def graph_ctx : Ctx :=
  Ctx.mk false false true false "master".toList none 0

theorem strchr_none_iff (c : Char) (s : CStr) : strchr c s = none ↔ c ∉ s := by
  induction s with
  | nil => simp [strchr]
  | cons x xs ih =>
    by_cases h : x = c
    · simp [strchr, h]
    · have h2 : ¬ c = x := fun e => h e.symm
      simp [strchr, h, h2, ih]

theorem strchr_some_split (c : Char) (s : CStr) (p : Nat) (h : strchr c s = some p) :
    s = s.take p ++ c :: s.drop (p + 1) ∧ c ∉ s.take p := by
  induction s generalizing p with
  | nil => simp [strchr] at h
  | cons x xs ih =>
    by_cases hx : x = c
    · simp [strchr, hx] at h
      subst h
      simp [hx]
    · cases hq : strchr c xs with
      | none => simp [strchr, hx, hq] at h
      | some q =>
      simp [strchr, hx, hq] at h
      subst h
      obtain ⟨h1, h2⟩ := ih q hq
      have hx2 : ¬ c = x := fun e => hx e.symm
      refine ⟨?_, ?_⟩
      · simp only [List.take_succ_cons, List.drop_succ_cons, List.cons_append]
        rw [← h1]
      · simp [List.take_succ_cons, hx2, h2]

/-- C10: `print_tag_content` prints nothing for a NULL message; otherwise it
prints the text before the first newline as the subject (which holds no
newline) and, exactly when the message has a newline, everything after that
first newline as the body, so that subject, newline and body give back the
message; subject and body go through `html_txt` in separate calls. -/
theorem print_tag_content_spec (m : CStr) :
    print_tag_content none = [] ∧
    ∃ subject : CStr, '\n' ∉ subject ∧
      (('\n' ∉ m ∧ subject = m ∧
          print_tag_content (some m) =
            [Html.html "<div class='commit-subject'>".toList, Html.html_txt subject,
             Html.html "</div>".toList]) ∨
       ('\n' ∈ m ∧ ∃ body : CStr, subject ++ '\n' :: body = m ∧
          print_tag_content (some m) =
            [Html.html "<div class='commit-subject'>".toList, Html.html_txt subject,
             Html.html "</div>".toList,
             Html.html "<div class='commit-msg'>".toList, Html.html_txt body,
             Html.html "</div>".toList])) := by
  refine ⟨rfl, ?_⟩
  cases h : strchr '\n' m with
  | none =>
    have hn := (strchr_none_iff _ _).1 h
    exact ⟨m, hn, Or.inl ⟨hn, rfl, by simp [print_tag_content, h]⟩⟩
  | some p =>
    obtain ⟨h1, h2⟩ := strchr_some_split _ _ _ h
    have hmem : '\n' ∈ m := by
      by_contra hc
      rw [(strchr_none_iff _ _).2 hc] at h
      exact Option.noConfusion h
    exact ⟨m.take p, h2, Or.inr ⟨hmem, m.drop (p + 1), h1.symm,
      by simp [print_tag_content, h]⟩⟩

/-! ## Properties of the decoration resolver -/

theorem char_toNat_inj (a b : Char) (h : (a.toNat : Int) - (b.toNat : Int) = 0) : b = a := by
  have h1 : a.toNat = b.toNat := by omega
  apply Char.ext
  apply UInt32.ext
  exact h1.symm

/-- For a prefix without NUL bytes `prefixcmp` is 0 exactly on the strings
that start with the prefix. -/
theorem prefixcmp_eq_zero_iff (pre : CStr) (hp : ∀ c ∈ pre, c.toNat ≠ 0) (str : CStr) :
    prefixcmp str pre = 0 ↔ pre <+: str := by
  induction pre generalizing str with
  | nil => simp [prefixcmp]
  | cons p ps ih =>
    have hps : ∀ c ∈ ps, c.toNat ≠ 0 := fun c hc => hp c (List.mem_cons_of_mem _ hc)
    cases str with
    | nil =>
      have h0 := hp p (List.mem_cons_self _ _)
      simp [prefixcmp]
      omega
    | cons x xs =>
      by_cases hx : x = p
      · subst hx
        simp [prefixcmp, ih hps xs, List.cons_prefix_cons]
      · have hne : (p.toNat : Int) - (x.toNat : Int) ≠ 0 := fun e => hx (char_toNat_inj _ _ e)
        have hx2 : ¬ p = x := fun e => hx e.symm
        simp [prefixcmp, hx, hne, List.cons_prefix_cons, hx2]

theorem prefixcmp_heads (n : CStr) :
    prefixcmp n "refs/heads/".toList = 0 ↔ "refs/heads/".toList <+: n :=
  prefixcmp_eq_zero_iff _ (by decide) n

theorem prefixcmp_atag (n : CStr) :
    prefixcmp n "tag: refs/tags/".toList = 0 ↔ "tag: refs/tags/".toList <+: n :=
  prefixcmp_eq_zero_iff _ (by decide) n

theorem prefixcmp_tags (n : CStr) :
    prefixcmp n "refs/tags/".toList = 0 ↔ "refs/tags/".toList <+: n :=
  prefixcmp_eq_zero_iff _ (by decide) n

theorem prefixcmp_remotes (n : CStr) :
    prefixcmp n "refs/remotes/".toList = 0 ↔ "refs/remotes/".toList <+: n :=
  prefixcmp_eq_zero_iff _ (by decide) n

/-- Two prefixes of one string that differ at some position below both
lengths cannot both match. -/
theorem prefix_clash (a b n : CStr) (i : Nat) (h : a.take (i + 1) ≠ b.take (i + 1))
    (ha : i < a.length) (hb : i < b.length) (h1 : a <+: n) (h2 : b <+: n) : False := by
  apply h
  have e1 : a.take (i + 1) = n.take (i + 1) := by
    obtain ⟨t, rfl⟩ := h1
    rw [List.take_append_of_le_length (by omega)]
  have e2 : b.take (i + 1) = n.take (i + 1) := by
    obtain ⟨t, rfl⟩ := h2
    rw [List.take_append_of_le_length (by omega)]
  rw [e1, e2]

theorem classify_cases (name : CStr) :
    (classify name = Kind.Branch ↔ "refs/heads/".toList <+: name) ∧
    (classify name = Kind.AnnotatedTag ↔ "tag: refs/tags/".toList <+: name) ∧
    (classify name = Kind.LightweightTag ↔ "refs/tags/".toList <+: name) ∧
    (classify name = Kind.Remote ↔ "refs/remotes/".toList <+: name) ∧
    (classify name = Kind.Other ↔
      ¬ ("refs/heads/".toList <+: name ∨ "tag: refs/tags/".toList <+: name ∨
         "refs/tags/".toList <+: name ∨ "refs/remotes/".toList <+: name)) := by
  have e12 : "refs/heads/".toList <+: name → "tag: refs/tags/".toList <+: name → False :=
    prefix_clash _ _ name 0 (by decide) (by decide) (by decide)
  have e13 : "refs/heads/".toList <+: name → "refs/tags/".toList <+: name → False :=
    prefix_clash _ _ name 5 (by decide) (by decide) (by decide)
  have e14 : "refs/heads/".toList <+: name → "refs/remotes/".toList <+: name → False :=
    prefix_clash _ _ name 5 (by decide) (by decide) (by decide)
  have e23 : "tag: refs/tags/".toList <+: name → "refs/tags/".toList <+: name → False :=
    prefix_clash _ _ name 0 (by decide) (by decide) (by decide)
  have e24 : "tag: refs/tags/".toList <+: name → "refs/remotes/".toList <+: name → False :=
    prefix_clash _ _ name 0 (by decide) (by decide) (by decide)
  have e34 : "refs/tags/".toList <+: name → "refs/remotes/".toList <+: name → False :=
    prefix_clash _ _ name 5 (by decide) (by decide) (by decide)
  unfold classify
  by_cases h1 : "refs/heads/".toList <+: name
  · have := e12 h1
    have := e13 h1
    have := e14 h1
    simp only [h1, if_true]
    tauto
  · by_cases h2 : "tag: refs/tags/".toList <+: name
    · have := e23 h2
      have := e24 h2
      simp only [h1, h2, if_true, if_false]
      simp
      tauto
    · by_cases h3 : "refs/tags/".toList <+: name
      · have := e34 h3
        simp only [h1, h2, h3, if_true, if_false]
        simp
        tauto
      · by_cases h4 : "refs/remotes/".toList <+: name
        · simp only [h1, h2, h3, h4, if_true, if_false]
          simp
        · simp only [h1, h2, h3, h4, if_false]
          simp

/-- The link the source emits for a ref name is the badge of its kind on its
label, cut to the size of the scratch buffer. -/
theorem decorate_eq_badge (head sha1 name : CStr) :
    decorate head sha1 name =
      badge head sha1 (classify name) (strncpy_buf (deco_label name)) := by
  simp only [decorate, deco_label, classify, prefixcmp_heads, prefixcmp_atag, prefixcmp_tags,
    prefixcmp_remotes]
  by_cases h1 : "refs/heads/".toList <+: name
  · simp only [h1, if_true, badge]
    rfl
  · by_cases h2 : "tag: refs/tags/".toList <+: name
    · simp only [h1, h2, if_true, if_false, badge]
      rfl
    · by_cases h3 : "refs/tags/".toList <+: name
      · simp only [h1, h2, h3, if_true, if_false, badge]
        rfl
      · by_cases h4 : "refs/remotes/".toList <+: name
        · simp only [h1, h2, h3, h4, if_true, if_false, badge]
          rfl
        · simp only [h1, h2, h3, h4, if_false, badge]

theorem deco_tests_unique (name : CStr) (t1 t2 : CStr × Kind)
    (m1 : t1 ∈ deco_tests) (m2 : t2 ∈ deco_tests) (p1 : t1.1 <+: name) (p2 : t2.1 <+: name) :
    t1 = t2 := by
  obtain ⟨c1, c2, c3, c4, _⟩ := classify_cases name
  have k : ∀ t, t ∈ deco_tests → t.1 <+: name → classify name = t.2 := by
    intro t ht hpre
    simp only [deco_tests, List.mem_cons, List.mem_singleton, List.not_mem_nil, or_false] at ht
    rcases ht with rfl | rfl | rfl | rfl
    · exact c1.2 hpre
    · exact c2.2 hpre
    · exact c3.2 hpre
    · exact c4.2 hpre
  have e : t1.2 = t2.2 := (k t1 m1 p1).symm.trans (k t2 m2 p2)
  simp only [deco_tests, List.mem_cons, List.mem_singleton, List.not_mem_nil, or_false] at m1 m2
  rcases m1 with rfl | rfl | rfl | rfl <;> rcases m2 with rfl | rfl | rfl | rfl <;>
    first | rfl | exact absurd e (by decide)

/-- Whatever the order of the four prefix tests, the chain emits the link
the source emits. -/
theorem decorate_in_order_perm (head sha1 name : CStr) (tests : List (CStr × Kind))
    (hperm : tests.Perm deco_tests) :
    decorate_in_order tests head sha1 name = decorate head sha1 name := by
  obtain ⟨c1, c2, c3, c4, c5⟩ := classify_cases name
  have hmem : ∀ t, t ∈ tests ↔ t ∈ deco_tests := fun t => hperm.mem_iff
  rw [decorate_eq_badge]
  unfold decorate_in_order deco_label
  cases hf : tests.find? (fun t => prefixcmp name t.1 = 0) with
  | some t =>
    have ht := List.find?_some hf
    have htm := (hmem t).1 (List.mem_of_find?_eq_some hf)
    simp only [decide_eq_true_eq] at ht
    simp only [deco_tests, List.mem_cons, List.mem_singleton, List.not_mem_nil, or_false] at htm
    rcases htm with rfl | rfl | rfl | rfl
    · rw [c1.2 ((prefixcmp_heads name).1 ht)]
    · rw [c2.2 ((prefixcmp_atag name).1 ht)]
    · rw [c3.2 ((prefixcmp_tags name).1 ht)]
    · rw [c4.2 ((prefixcmp_remotes name).1 ht)]
  | none =>
    have hn := List.find?_eq_none.1 hf
    have h1 := hn _ ((hmem ("refs/heads/".toList, Kind.Branch)).2 (by simp [deco_tests]))
    have h2 := hn _ ((hmem ("tag: refs/tags/".toList, Kind.AnnotatedTag)).2 (by simp [deco_tests]))
    have h3 := hn _ ((hmem ("refs/tags/".toList, Kind.LightweightTag)).2 (by simp [deco_tests]))
    have h4 := hn _ ((hmem ("refs/remotes/".toList, Kind.Remote)).2 (by simp [deco_tests]))
    simp only [decide_eq_true_eq] at h1 h2 h3 h4
    rw [prefixcmp_heads] at h1
    rw [prefixcmp_atag] at h2
    rw [prefixcmp_tags] at h3
    rw [prefixcmp_remotes] at h4
    rw [c5.2 (by tauto)]

/-- The link `show_commit_decorations` emits for one ref name that starts
with a given prefix of the four, or with none of them. -/
theorem show_commit_decorations_one (head sha1 : CStr) (rest : CStr) :
    show_commit_decorations head sha1 ["refs/heads/".toList ++ rest] =
      [Html.log_link (rest.take 1023) (some "branch-deco".toList) (some (rest.take 1023))
        none 0] ∧
    show_commit_decorations head sha1 ["tag: refs/tags/".toList ++ rest] =
      [Html.tag_link (rest.take 1023) (some "tag-deco".toList) head (rest.take 1023)] ∧
    show_commit_decorations head sha1 ["refs/tags/".toList ++ rest] =
      [Html.tag_link (rest.take 1023) (some "tag-deco".toList) head (rest.take 1023)] ∧
    show_commit_decorations head sha1 ["refs/remotes/".toList ++ rest] =
      [Html.log_link (rest.take 1023) (some "remote-deco".toList) none (some sha1) 0] := by
  have key : ∀ (p : CStr) (k : Kind), (classify (p ++ rest) = k ↔ p <+: p ++ rest) →
      deco_label (p ++ rest) = (match k with
        | Kind.Branch => (p ++ rest).drop "refs/heads/".toList.length
        | Kind.AnnotatedTag => (p ++ rest).drop "tag: refs/tags/".toList.length
        | Kind.LightweightTag => (p ++ rest).drop "refs/tags/".toList.length
        | Kind.Remote => (p ++ rest).drop "refs/remotes/".toList.length
        | Kind.Other => p ++ rest) ∧ classify (p ++ rest) = k := by
    intro p k h
    have hk := h.2 (List.prefix_append _ _)
    exact ⟨by rw [deco_label, hk], hk⟩
  obtain ⟨c1, _⟩ := classify_cases ("refs/heads/".toList ++ rest)
  obtain ⟨_, c2, _⟩ := classify_cases ("tag: refs/tags/".toList ++ rest)
  obtain ⟨_, _, c3, _⟩ := classify_cases ("refs/tags/".toList ++ rest)
  obtain ⟨_, _, _, c4, _⟩ := classify_cases ("refs/remotes/".toList ++ rest)
  obtain ⟨l1, k1⟩ := key _ _ c1
  obtain ⟨l2, k2⟩ := key _ _ c2
  obtain ⟨l3, k3⟩ := key _ _ c3
  obtain ⟨l4, k4⟩ := key _ _ c4
  simp only [List.drop_left] at l1 l2 l3 l4
  simp only [show_commit_decorations, List.map_cons, List.map_nil, decorate_eq_badge,
    k1, k2, k3, k4, l1, l2, l3, l4, badge, strncpy_buf, and_self]

/-- C4: for every list of ref names `show_commit_decorations` emits one link
per name, in order, and the link is fixed by the prefix of the name:
`refs/heads/` gives the branch link, `tag: refs/tags/` and `refs/tags/` the
tag link, `refs/remotes/` the remote link, each on the name without that
prefix, and every other string, the empty one included, the commit link on
the whole name (kind Other).  At most one of the four prefixes matches a
string, so running the four tests in any order emits the same links;
`tag: refs/tags/x` gets the tag link on `x`, not the remote link or the
fall-through commit link. -/
theorem show_commit_decorations_branch (head sha1 name rest : CStr) (decos : List CStr) :
    show_commit_decorations head sha1 decos =
      decos.map (fun n => badge head sha1 (classify n) ((deco_label n).take 1023)) ∧
    (classify name = Kind.Branch ↔ "refs/heads/".toList <+: name) ∧
    (classify name = Kind.AnnotatedTag ↔ "tag: refs/tags/".toList <+: name) ∧
    (classify name = Kind.LightweightTag ↔ "refs/tags/".toList <+: name) ∧
    (classify name = Kind.Remote ↔ "refs/remotes/".toList <+: name) ∧
    (classify name = Kind.Other ↔
      ¬ ("refs/heads/".toList <+: name ∨ "tag: refs/tags/".toList <+: name ∨
         "refs/tags/".toList <+: name ∨ "refs/remotes/".toList <+: name)) ∧
    show_commit_decorations head sha1 ["refs/heads/".toList ++ rest] =
      [Html.log_link (rest.take 1023) (some "branch-deco".toList) (some (rest.take 1023))
        none 0] ∧
    show_commit_decorations head sha1 ["tag: refs/tags/".toList ++ rest] =
      [Html.tag_link (rest.take 1023) (some "tag-deco".toList) head (rest.take 1023)] ∧
    show_commit_decorations head sha1 ["refs/tags/".toList ++ rest] =
      [Html.tag_link (rest.take 1023) (some "tag-deco".toList) head (rest.take 1023)] ∧
    show_commit_decorations head sha1 ["refs/remotes/".toList ++ rest] =
      [Html.log_link (rest.take 1023) (some "remote-deco".toList) none (some sha1) 0] ∧
    (classify name = Kind.Other →
      show_commit_decorations head sha1 [name] =
        [Html.commit_link (name.take 1023) (some "deco".toList) head sha1]) ∧
    (∀ t1 ∈ deco_tests, ∀ t2 ∈ deco_tests, t1.1 <+: name → t2.1 <+: name → t1 = t2) ∧
    (∀ tests : List (CStr × Kind), tests.Perm deco_tests →
      decos.map (decorate_in_order tests head sha1) =
        show_commit_decorations head sha1 decos) ∧
    show_commit_decorations head sha1 [[]] =
      [Html.commit_link [] (some "deco".toList) head sha1] ∧
    show_commit_decorations head sha1 ["tag: refs/tags/x".toList] =
      [Html.tag_link "x".toList (some "tag-deco".toList) head "x".toList] := by
  obtain ⟨c1, c2, c3, c4, c5⟩ := classify_cases name
  obtain ⟨o1, o2, o3, o4⟩ := show_commit_decorations_one head sha1 rest
  have hother : ∀ n : CStr, classify n = Kind.Other →
      show_commit_decorations head sha1 [n] =
        [Html.commit_link (n.take 1023) (some "deco".toList) head sha1] := by
    intro n hn
    simp only [show_commit_decorations, List.map_cons, List.map_nil, decorate_eq_badge,
      deco_label, hn, badge, strncpy_buf]
  refine ⟨?_, c1, c2, c3, c4, c5, o1, o2, o3, o4, hother name,
    fun t1 m1 t2 m2 p1 p2 => deco_tests_unique name t1 t2 m1 m2 p1 p2, ?_, ?_, ?_⟩
  · unfold show_commit_decorations
    apply List.map_congr_left
    intro n _
    rw [decorate_eq_badge]
    rfl
  · intro tests hperm
    unfold show_commit_decorations
    apply List.map_congr_left
    intro n _
    exact decorate_in_order_perm head sha1 n tests hperm
  · exact hother [] ((classify_cases []).2.2.2.2.2 (by decide))
  · exact (show_commit_decorations_one head sha1 "x".toList).2.1

/-- Witness for C4: two ref names, with the tests run in reverse source
order. -/
theorem show_commit_decorations_branch_witness :
    deco_tests.reverse.Perm deco_tests ∧
    ["tag: refs/tags/x".toList, "HEAD".toList].map
        (decorate_in_order deco_tests.reverse "master".toList "1f3a".toList) =
      show_commit_decorations "master".toList "1f3a".toList
        ["tag: refs/tags/x".toList, "HEAD".toList] :=
  ⟨List.reverse_perm _,
   (show_commit_decorations_branch "master".toList "1f3a".toList [] []
      ["tag: refs/tags/x".toList, "HEAD".toList]).2.2.2.2.2.2.2.2.2.2.2.2.1
     deco_tests.reverse (List.reverse_perm _)⟩

/-! ## Properties of the diff statistics -/

theorem cgit_diff_files_count (lines : List CStr) (st : Counters) :
    cgit_diff_files (diff_filepair.mk lines) count_lines st =
      Counters.mk st.files
        (st.add_lines + (lines.countP fun l => l.head? = some '+' : Nat))
        (st.rem_lines + (lines.countP fun l => l.head? = some '-' : Nat)) := by
  unfold cgit_diff_files
  simp only
  induction lines generalizing st with
  | nil => simp
  | cons l ls ih =>
    rw [List.foldl_cons, ih]
    cases l with
    | nil => simp [count_lines]
    | cons x xs =>
      have hpos : ¬ ((xs.length : Int) + 1 ≤ 0) := by omega
      by_cases hp : x = '+'
      · subst hp
        simp [count_lines, List.countP_cons, hpos]
        omega
      · by_cases hm : x = '-'
        · subst hm
          simp [count_lines, List.countP_cons, hpos]
          omega
        · simp [count_lines, List.countP_cons, hp, hm, hpos]

theorem cgit_diff_commit_count (ctx : Ctx) (diff : List diff_filepair) (st : Counters) :
    diff.foldl (fun acc pair => inspect_files ctx pair acc) st =
      Counters.mk (st.files + diff.length)
        (st.add_lines + if ctx.enable_log_linecount then (lines_starting '+' diff : Int) else 0)
        (st.rem_lines + if ctx.enable_log_linecount then (lines_starting '-' diff : Int) else 0)
        := by
  induction diff generalizing st with
  | nil => simp [lines_starting]
  | cons p ps ih =>
    rw [List.foldl_cons, ih]
    cases p with
    | mk lines =>
      by_cases hl : ctx.enable_log_linecount = true
      · simp only [inspect_files, hl, if_true, cgit_diff_files_count, lines_starting,
          List.map_cons, List.sum_cons, List.length_cons]
        simp only [Counters.mk.injEq]
        push_cast
        refine ⟨by omega, by omega, by omega⟩
      · simp only [inspect_files, hl, lines_starting, List.length_cons]
        simp only [Counters.mk.injEq]
        push_cast
        refine ⟨by omega, by simp, by simp⟩

theorem stat_cells_counters (ctx : Ctx) (c : Commit) (st : Counters)
    (hf : ctx.enable_log_filecount = true) :
    (stat_cells ctx c st).1 =
      Counters.mk c.diff.length
        (if ctx.enable_log_linecount then (lines_starting '+' c.diff : Int) else 0)
        (if ctx.enable_log_linecount then (lines_starting '-' c.diff : Int) else 0) := by
  unfold stat_cells cgit_diff_commit
  rw [cgit_diff_commit_count]
  by_cases hl : ctx.enable_log_linecount = true <;> simp [hf, hl]

theorem print_commit_counters (isspace : Char → Bool) (E : GraphEngine) (ctx : Ctx)
    (c : Commit) (graph : Option E.Pending) (st : Counters) :
    (print_commit isspace E ctx c graph st).counters = (stat_cells ctx c st).1 := by
  unfold print_commit
  simp only
  split <;> rfl

theorem lines_starting_perm (ch : Char) (d1 d2 : List diff_filepair) (h : d1.Perm d2) :
    lines_starting ch d1 = lines_starting ch d2 := by
  unfold lines_starting
  exact (h.map _).sum_eq

/-- C7: with file counts enabled, the counters `print_commit` holds after
`cgit_diff_commit` returned, and the numbers it prints from them, are the
number of file pairs of the commit and, with line counts enabled, the numbers
of non-empty diff lines that start with `+` and with `-` (both 0 with line
counts disabled).  They are counted from zero, so they do not depend on the
counters left by an earlier commit, and they are the same for every
permutation of the file pairs. -/
theorem print_commit_diff_stat (isspace : Char → Bool) (E : GraphEngine) (ctx : Ctx)
    (c : Commit) (graph : Option E.Pending) (st : Counters)
    (hf : ctx.enable_log_filecount = true) :
    (print_commit isspace E ctx c graph st).counters =
      Counters.mk c.diff.length
        (if ctx.enable_log_linecount then (lines_starting '+' c.diff : Int) else 0)
        (if ctx.enable_log_linecount then (lines_starting '-' c.diff : Int) else 0) ∧
    (stat_cells ctx c st).2 =
      (if ctx.enable_log_linecount then
        [Cell.mk false none 1 [Html.int c.diff.length],
         Cell.mk false none 1
           [Html.html "-".toList, Html.int (lines_starting '-' c.diff),
            Html.html "/+".toList, Html.int (lines_starting '+' c.diff)]]
       else [Cell.mk false none 1 [Html.int c.diff.length]]) ∧
    (ctx.enable_log_linecount = false →
      (print_commit isspace E ctx c graph st).counters.add_lines = 0 ∧
      (print_commit isspace E ctx c graph st).counters.rem_lines = 0) ∧
    (∀ (c2 : Commit) (graph2 : Option E.Pending) (st2 : Counters), c2.diff.Perm c.diff →
      (print_commit isspace E ctx c2 graph2 st2).counters =
        (print_commit isspace E ctx c graph st).counters) := by
  have key : ∀ (c1 : Commit) (g1 : Option E.Pending) (s1 : Counters),
      (print_commit isspace E ctx c1 g1 s1).counters =
        Counters.mk c1.diff.length
          (if ctx.enable_log_linecount then (lines_starting '+' c1.diff : Int) else 0)
          (if ctx.enable_log_linecount then (lines_starting '-' c1.diff : Int) else 0) :=
    fun c1 g1 s1 => (print_commit_counters isspace E ctx c1 g1 s1).trans
      (stat_cells_counters ctx c1 s1 hf)
  refine ⟨key c graph st, ?_, ?_, ?_⟩
  · have h1 := stat_cells_counters ctx c st hf
    unfold stat_cells at h1 ⊢
    simp only [hf, if_true] at h1 ⊢
    by_cases hl : ctx.enable_log_linecount = true
    · simp only [hl, if_true] at h1 ⊢
      rw [h1]
    · simp only [hl] at h1 ⊢
      simp only [Bool.false_eq_true, if_false] at h1 ⊢
      rw [h1]
  · intro hl
    rw [key c graph st]
    simp [hl]
  · intro c2 graph2 st2 hperm
    rw [key c2 graph2 st2, key c graph st, hperm.length_eq,
      lines_starting_perm '+' _ _ hperm, lines_starting_perm '-' _ _ hperm]

/-- Witness for C7: the sample commit on stale counters. -/
theorem print_commit_diff_stat_witness :
    sample_ctx.enable_log_filecount = true ∧
    (print_commit (fun _ => false) idle_engine sample_ctx sample_commit none
      (Counters.mk 7 7 7)).counters = Counters.mk 2 2 1 :=
  ⟨rfl, (print_commit_diff_stat (fun _ => false) idle_engine sample_ctx sample_commit none
    (Counters.mk 7 7 7) rfl).1.trans (by decide)⟩

/-! ## Properties of the range parser -/

theorem splitOnP_run (isspace : Char → Bool) (s : CStr) :
    s.splitOnP isspace =
      s.takeWhile (fun x => !isspace x) ::
        (if s.dropWhile (fun x => !isspace x) = [] then []
         else ((s.dropWhile (fun x => !isspace x)).drop 1).splitOnP isspace) := by
  induction s with
  | nil => simp
  | cons c cs ih =>
    by_cases hc : isspace c = true
    · simp [List.splitOnP_cons, hc, List.takeWhile_cons, List.dropWhile_cons]
    · simp only [Bool.not_eq_true] at hc
      rw [List.splitOnP_cons, ih]
      simp [hc, List.takeWhile_cons, List.dropWhile_cons, List.modifyHead]

theorem ws_tokens_nil (isspace : Char → Bool) : ws_tokens isspace [] = [] := by
  simp [ws_tokens]

theorem ws_tokens_dropWhile (isspace : Char → Bool) (s : CStr) :
    ws_tokens isspace (s.dropWhile isspace) = ws_tokens isspace s := by
  induction s with
  | nil => rfl
  | cons c cs ih =>
    by_cases hc : isspace c = true
    · rw [List.dropWhile_cons_of_pos hc, ih]
      simp [ws_tokens, List.splitOnP_cons, hc]
    · rw [List.dropWhile_cons_of_neg hc]

/-- One `next_token` call returns the first whitespace-free token and leaves
the remaining tokens in `*src`; it returns NULL exactly when no token is
left. -/
theorem ws_tokens_next_token (isspace : Char → Bool) (s : CStr) :
    ws_tokens isspace s =
      match next_token isspace s with
      | (none, _) => []
      | (some t, rest) => t :: ws_tokens isspace rest := by
  rw [← ws_tokens_dropWhile]
  unfold next_token
  cases hs : s.dropWhile isspace with
  | nil => simp [ws_tokens_nil]
  | cons c cs =>
    have hc : isspace c = false := by
      have := List.head?_dropWhile_not isspace s
      rw [hs] at this
      simpa using this
    simp only
    conv_lhs => rw [ws_tokens, splitOnP_run]
    have hne : (c :: cs).takeWhile (fun x => !isspace x) ≠ [] := by
      simp [List.takeWhile_cons, hc]
    rw [List.filter_cons]
    have hne2 : (!((c :: cs).takeWhile (fun x => !isspace x)).isEmpty) = true := by
      cases h : (c :: cs).takeWhile (fun x => !isspace x) with
      | nil => exact absurd h hne
      | cons _ _ => rfl
    rw [if_pos hne2]
    congr 1
    by_cases hd : (c :: cs).dropWhile (fun x => !isspace x) = []
    · rw [if_pos hd, hd]
      simp [ws_tokens_nil]
    · rw [if_neg hd]
      rfl

theorem range_loop_spec (isspace : Char → Bool) (pattern : CStr) :
    (range_loop isspace pattern).args =
      (ws_tokens isspace pattern).takeWhile (fun t => !(t.head? == some '-')) ∧
    (range_loop isspace pattern).bad =
      (ws_tokens isspace pattern).find? (fun t => t.head? == some '-') := by
  generalize h : pattern.length = n
  induction n using Nat.strong_induction_on generalizing pattern with
  | _ n ih =>
    rw [ws_tokens_next_token, range_loop]
    split
    · next hnt => simp [hnt]
    · next arg rest hnt =>
      simp only [hnt]
      have hlt : rest.length < n := by
        rw [← h]
        unfold next_token at hnt
        have hle := (List.dropWhile_sublist isspace (l := pattern)).length_le
        cases hs : pattern.dropWhile isspace with
        | nil => simp [hs] at hnt
        | cons c cs =>
          rw [hs] at hnt hle
          simp only [Prod.mk.injEq, Option.some.injEq] at hnt
          obtain ⟨_, rfl⟩ := hnt
          have h2 := (List.dropWhile_sublist (fun x => !isspace x) (l := c :: cs)).length_le
          simp only [List.length_drop, List.length_cons] at *
          omega
      obtain ⟨ih1, ih2⟩ := ih rest.length hlt rest rfl
      by_cases hd : arg.head? = some '-'
      · simp [hd, List.takeWhile_cons, List.find?_cons]
      · simp [hd, List.takeWhile_cons, List.find?_cons, ih1, ih2]

theorem ws_tokens_free (isspace : Char → Bool) (pattern : CStr) :
    ∀ t ∈ ws_tokens isspace pattern, t ≠ [] ∧ ∀ c ∈ t, isspace c = false := by
  generalize h : pattern.length = n
  induction n using Nat.strong_induction_on generalizing pattern with
  | _ n ih =>
    intro t ht
    rw [ws_tokens_next_token] at ht
    unfold next_token at ht
    have hle := (List.dropWhile_sublist isspace (l := pattern)).length_le
    cases hs : pattern.dropWhile isspace with
    | nil => simp [hs] at ht
    | cons c cs =>
      have hc : isspace c = false := by
        have := List.head?_dropWhile_not isspace pattern
        rw [hs] at this
        simpa using this
      rw [hs] at hle
      simp only [hs, List.mem_cons] at ht
      rcases ht with rfl | ht
      · refine ⟨by simp [List.takeWhile_cons, hc], fun x hx => ?_⟩
        have := List.mem_takeWhile_imp hx
        simpa using this
      · have h2 := (List.dropWhile_sublist (fun x => !isspace x) (l := c :: cs)).length_le
        refine ih _ ?_ _ rfl t ht
        simp only [List.length_drop, List.length_cons] at *
        omega

/-- C9: for grep `range` and a non-empty pattern, the argument vector of
`cgit_print_log` holds, in place of the tip, exactly the whitespace-free
tokens of the pattern that come before the first token starting with `-`,
in order; that token is reported and neither it nor a later token is pushed,
while the tokens before it stay in the vector (followed by the graph and
path arguments, as for every request). -/
theorem cgit_print_log_range_args (isspace : Char → Bool) (E : GraphEngine)
    (get_sha1 : CStr → Int) (setup_revisions : List (Option CStr) → RevInfo E.State)
    (ctx : Ctx) (st : Counters) (tip : Option CStr) (ofs cnt : Int) (pattern : CStr)
    (path : Option CStr) (pager : Bool) (hp : pattern ≠ []) :
    (cgit_print_log isspace E get_sha1 setup_revisions ctx st tip ofs cnt
        (some "range".toList) (some pattern) path pager).argv =
      [none] ++
      ((ws_tokens isspace pattern).takeWhile (fun t => !(t.head? == some '-'))).map some ++
      (if ctx.enable_commit_graph then [some "--graph".toList, some "--color".toList] else []) ++
      (match path with
       | some p => [some "--".toList, some p]
       | none => []) ∧
    (cgit_print_log isspace E get_sha1 setup_revisions ctx st tip ofs cnt
        (some "range".toList) (some pattern) path pager).bad_range =
      (ws_tokens isspace pattern).find? (fun t => t.head? == some '-') ∧
    (∀ t ∈ ws_tokens isspace pattern, t ≠ [] ∧ ∀ c ∈ t, isspace c = false) := by
  obtain ⟨h1, h2⟩ := range_loop_spec isspace pattern
  refine ⟨?_, ?_, ws_tokens_free isspace pattern⟩
  · cases pattern with
    | nil => exact absurd rfl hp
    | cons p ps =>
      show (log_argv isspace get_sha1 ctx tip (some "range".toList) (some (p :: ps)) path).1 = _
      unfold log_argv
      have g1 : ¬ ("range".toList = "grep".toList ∨ "range".toList = "author".toList ∨
          "range".toList = "committer".toList) := by decide
      simp only [g1, if_false, if_true, h1]
      cases path <;> cases ctx.enable_commit_graph <;> simp
  · cases pattern with
    | nil => exact absurd rfl hp
    | cons p ps =>
      show (log_argv isspace get_sha1 ctx tip (some "range".toList) (some (p :: ps)) path).2 = _
      unfold log_argv
      simp only [if_true, h2]

/-- Witness for C9: a range pattern with irregular spacing and an option
in third place. -/
theorem cgit_print_log_range_args_witness :
    "v1.0..v2.0   master -n5 next".toList ≠ [] ∧
    (cgit_print_log (fun c => c == ' ') idle_engine (fun _ => 1)
        (fun _ => RevInfo.mk [] none) sample_ctx (Counters.mk 0 0 0) none 0 50
        (some "range".toList) (some "v1.0..v2.0   master -n5 next".toList) none true).argv =
      [none, some "v1.0..v2.0".toList, some "master".toList] :=
  ⟨by decide,
   (cgit_print_log_range_args (fun c => c == ' ') idle_engine (fun _ => 1)
      (fun _ => RevInfo.mk [] none) sample_ctx (Counters.mk 0 0 0) none 0 50
      "v1.0..v2.0   master -n5 next".toList none true (by decide)).1.trans (by decide)⟩

/-! ## Properties of the pagination -/

theorem skip_loop_commits (E : GraphEngine) (ofs i : Int) (rev : RevInfo E.State) :
    (skip_loop E ofs i rev).commits = rev.commits.drop (ofs - i).toNat := by
  generalize hn : (ofs - i).toNat = n
  induction n generalizing i rev with
  | zero =>
    rw [skip_loop]
    have h : ¬ i < ofs := by omega
    simp [h]
  | succ n ih =>
    rw [skip_loop]
    have h : i < ofs := by omega
    simp only [h, dite_true]
    cases rev with
    | mk commits graph =>
      cases commits with
      | nil => simp [get_revision]
      | cons c rest =>
        simp only [get_revision, List.drop_succ_cons]
        exact ih (i + 1) _ (by omega)

theorem render_loop_spec (isspace : Char → Bool) (E : GraphEngine) (ctx : Ctx) (cnt i : Int)
    (rev : RevInfo E.State) (st : Counters) :
    (render_loop isspace E ctx cnt i rev st).rev.commits = rev.commits.drop (cnt - i).toNat ∧
    rendered (render_loop isspace E ctx cnt i rev st).out = rev.commits.take (cnt - i).toNat ∧
    (∀ name, pager_links name (render_loop isspace E ctx cnt i rev st).out = []) := by
  generalize hn : (cnt - i).toNat = n
  induction n generalizing i rev st with
  | zero =>
    rw [render_loop]
    have h : ¬ i < cnt := by omega
    simp [h, rendered, pager_links]
  | succ n ih =>
    rw [render_loop]
    have h : i < cnt := by omega
    simp only [h, dite_true]
    cases rev with
    | mk commits graph =>
      cases commits with
      | nil => simp [get_revision, rendered, pager_links]
      | cons c rest =>
        simp only [get_revision, List.drop_succ_cons, List.take_succ_cons]
        obtain ⟨h1, h2, h3⟩ := ih (i + 1)
          (RevInfo.mk rest (print_commit isspace E ctx c
            (graph.map fun g => Subtype.mk (E.graph_update g c) (E.update_pending g c))
            st).graph)
          (print_commit isspace E ctx c
            (graph.map fun g => Subtype.mk (E.graph_update g c) (E.update_pending g c))
            st).counters
          (by omega)
        refine ⟨h1, ?_, ?_⟩
        · rw [← h2]
          simp [rendered]
        · intro name
          have := h3 name
          simp only [pager_links] at this ⊢
          simp [this]

theorem get_revision_none (E : GraphEngine) (rev : RevInfo E.State) :
    get_revision E rev = none ↔ rev.commits = [] := by
  unfold get_revision
  cases rev.commits <;> simp

/-- The output of `cgit_print_log` in paged mode, seen through the commits
rendered and the two pager links, in terms of the walk `h` that
`setup_revisions` prepared. -/
theorem cgit_print_log_paged (isspace : Char → Bool) (E : GraphEngine)
    (get_sha1 : CStr → Int) (setup_revisions : List (Option CStr) → RevInfo E.State)
    (ctx : Ctx) (st : Counters) (tip : Option CStr) (ofs cnt : Int)
    (grep pattern path : Option CStr) (pager : Bool) (h : List Commit)
    (hh : (setup_revisions (log_argv isspace get_sha1 ctx tip grep pattern path).1).commits = h) :
    rendered (cgit_print_log isspace E get_sha1 setup_revisions ctx st tip ofs cnt
        grep pattern path pager).out = (h.drop ofs.toNat).take cnt.toNat ∧
    pager_links "[prev]".toList (cgit_print_log isspace E get_sha1 setup_revisions ctx st tip
        ofs cnt grep pattern path pager).out =
      (if pager = true ∧ 0 < ofs then [ofs - cnt] else []) ∧
    pager_links "[next]".toList (cgit_print_log isspace E get_sha1 setup_revisions ctx st tip
        ofs cnt grep pattern path pager).out =
      (if pager = true ∧ ofs.toNat + cnt.toNat < h.length then [(ofs.toNat : Int) + cnt]
       else []) := by
  have hofs : ((if ofs < 0 then 0 else ofs) - 0 : Int).toNat = ofs.toNat := by
    split <;> omega
  have hskip := skip_loop_commits E (if ofs < 0 then 0 else ofs) 0
    (setup_revisions (log_argv isspace get_sha1 ctx tip grep pattern path).1)
  rw [hh, hofs] at hskip
  obtain ⟨r1, r2, r3⟩ := render_loop_spec isspace E ctx cnt 0
    (skip_loop E (if ofs < 0 then 0 else ofs) 0
      (setup_revisions (log_argv isspace get_sha1 ctx tip grep pattern path).1)) st
  rw [hskip] at r1 r2
  simp only [sub_zero] at r1 r2
  have hnext := get_revision_none E (render_loop isspace E ctx cnt 0
    (skip_loop E (if ofs < 0 then 0 else ofs) 0
      (setup_revisions (log_argv isspace get_sha1 ctx tip grep pattern path).1)) st).rev
  rw [r1] at hnext
  have hhead : ((h.drop ofs.toNat).drop cnt.toNat) = [] ↔
      ¬ ofs.toNat + cnt.toNat < h.length := by
    rw [List.drop_drop, List.drop_eq_nil_iff]
    omega
  have p1 := r3 "[prev]".toList
  have p2 := r3 "[next]".toList
  unfold cgit_print_log
  simp only [rendered, pager_links, List.filterMap_append] at r2 p1 p2 ⊢
  rw [r2, p1, p2]
  cases pager with
  | false =>
    simp only [Bool.false_eq_true, false_and, if_false]
    cases hg : (get_revision E (render_loop isspace E ctx cnt 0
      (skip_loop E (if ofs < 0 then 0 else ofs) 0
        (setup_revisions (log_argv isspace get_sha1 ctx tip grep pattern path).1)) st).rev)
      <;> simp
  | true =>
    simp only [true_and, if_true]
    have hlink : "[prev]".toList ≠ "[next]".toList := by decide
    cases hg : (get_revision E (render_loop isspace E ctx cnt 0
      (skip_loop E (if ofs < 0 then 0 else ofs) 0
        (setup_revisions (log_argv isspace get_sha1 ctx tip grep pattern path).1)) st).rev)
      with
    | none =>
      have hno := hhead.1 (hnext.1 hg)
      by_cases ho : 0 < ofs
      · have ho2 : ¬ ofs < 0 := by omega
        simp [ho, ho2, hno, hlink]
      · have ho2 : (if ofs < 0 then 0 else ofs) = 0 := by split <;> omega
        simp [ho, ho2, hno]
    | some c =>
      have hyes : ofs.toNat + cnt.toNat < h.length := by
        by_contra hc
        rw [hnext.2 (hhead.2 hc)] at hg
        exact Option.noConfusion hg
      by_cases ho : 0 < ofs
      · have ho2 : ¬ ofs < 0 := by omega
        have ho3 : ((ofs.toNat : Int)) = ofs := by omega
        simp [ho, ho2, hyes, hlink, hlink.symm, ho3]
      · have ho2 : (if ofs < 0 then 0 else ofs) = 0 := by split <;> omega
        have ho3 : ((ofs.toNat : Int)) = 0 := by omega
        simp [ho, ho2, hyes, ho3]

/-- C1: on the walk `h` prepared by `setup_revisions`, the commits
`cgit_print_log` hands to `print_commit` for offset `ofs` and count `cnt`
are, in order, the window `(h.drop ofs).take cnt`, so `min cnt (|h| - ofs)`
commits are rendered; the page at offset 0 followed by the page at offset
`K` (both of count `K`) is the page at offset 0 of count `2 * K`. -/
theorem cgit_print_log_window (isspace : Char → Bool) (E : GraphEngine)
    (get_sha1 : CStr → Int) (setup_revisions : List (Option CStr) → RevInfo E.State)
    (ctx : Ctx) (st : Counters) (tip : Option CStr) (ofs cnt : Nat)
    (grep pattern path : Option CStr) (pager : Bool) :
    rendered (cgit_print_log isspace E get_sha1 setup_revisions ctx st tip ofs cnt
        grep pattern path pager).out =
      ((setup_revisions (log_argv isspace get_sha1 ctx tip grep pattern path).1).commits.drop
        ofs).take cnt ∧
    (rendered (cgit_print_log isspace E get_sha1 setup_revisions ctx st tip ofs cnt
        grep pattern path pager).out).length =
      min cnt ((setup_revisions
        (log_argv isspace get_sha1 ctx tip grep pattern path).1).commits.length - ofs) ∧
    (∀ K : Nat,
      rendered (cgit_print_log isspace E get_sha1 setup_revisions ctx st tip 0 K
          grep pattern path pager).out ++
      rendered (cgit_print_log isspace E get_sha1 setup_revisions ctx st tip K K
          grep pattern path pager).out =
      rendered (cgit_print_log isspace E get_sha1 setup_revisions ctx st tip 0 (2 * K : Nat)
          grep pattern path pager).out) := by
  have key : ∀ a b : Nat,
      rendered (cgit_print_log isspace E get_sha1 setup_revisions ctx st tip a b
        grep pattern path pager).out =
      ((setup_revisions (log_argv isspace get_sha1 ctx tip grep pattern path).1).commits.drop
        a).take b := by
    intro a b
    have := (cgit_print_log_paged isspace E get_sha1 setup_revisions ctx st tip a b
      grep pattern path pager _ rfl).1
    simpa using this
  refine ⟨key ofs cnt, ?_, ?_⟩
  · rw [key ofs cnt, List.length_take, List.length_drop]
  · intro K
    have k0 := key 0 K
    have k1 := key K K
    have k2 := key 0 (2 * K)
    simp only [Nat.cast_zero] at k0 k2
    rw [k0, k1, k2, List.drop_zero]
    generalize (setup_revisions
      (log_argv isspace get_sha1 ctx tip grep pattern path).1).commits = h
    have e : 2 * K = K + K := by omega
    rw [e, List.take_add]

/-- C2: in paged mode `cgit_print_log` emits the `[next]` link exactly when
the walk `h` has more than `ofs + cnt` commits; the link carries the offset
`ofs + cnt`; and the commits after offset `ofs` are the rendered ones
followed by those from position `ofs + cnt` on, so the commit pulled for the
lookahead is not rendered. -/
theorem cgit_print_log_next (isspace : Char → Bool) (E : GraphEngine)
    (get_sha1 : CStr → Int) (setup_revisions : List (Option CStr) → RevInfo E.State)
    (ctx : Ctx) (st : Counters) (tip : Option CStr) (ofs cnt : Nat)
    (grep pattern path : Option CStr) :
    (pager_links "[next]".toList (cgit_print_log isspace E get_sha1 setup_revisions ctx st tip
        ofs cnt grep pattern path true).out ≠ [] ↔
      ofs + cnt < (setup_revisions
        (log_argv isspace get_sha1 ctx tip grep pattern path).1).commits.length) ∧
    pager_links "[next]".toList (cgit_print_log isspace E get_sha1 setup_revisions ctx st tip
        ofs cnt grep pattern path true).out =
      (if ofs + cnt < (setup_revisions
          (log_argv isspace get_sha1 ctx tip grep pattern path).1).commits.length
       then [((ofs + cnt : Nat) : Int)] else []) ∧
    (setup_revisions (log_argv isspace get_sha1 ctx tip grep pattern path).1).commits.drop ofs =
      rendered (cgit_print_log isspace E get_sha1 setup_revisions ctx st tip
        ofs cnt grep pattern path true).out ++
      (setup_revisions (log_argv isspace get_sha1 ctx tip grep pattern path).1).commits.drop
        (ofs + cnt) := by
  obtain ⟨h1, _, h3⟩ := cgit_print_log_paged isspace E get_sha1 setup_revisions ctx st tip
    ofs cnt grep pattern path true _ rfl
  simp only [Int.toNat_ofNat, true_and] at h1 h3
  refine ⟨?_, ?_, ?_⟩
  · rw [h3]
    split <;> simp [*]
  · rw [h3]
    split <;> simp
  · rw [h1, ← List.drop_drop, List.take_append_drop]

/-- C8 (as amended): in paged mode `cgit_print_log` emits the `[prev]` link
exactly when `ofs > 0`, and the offset it passes to the link is `ofs - cnt`,
without a lower bound. -/
theorem cgit_print_log_prev (isspace : Char → Bool) (E : GraphEngine)
    (get_sha1 : CStr → Int) (setup_revisions : List (Option CStr) → RevInfo E.State)
    (ctx : Ctx) (st : Counters) (tip : Option CStr) (ofs cnt : Int)
    (grep pattern path : Option CStr) :
    (pager_links "[prev]".toList (cgit_print_log isspace E get_sha1 setup_revisions ctx st tip
        ofs cnt grep pattern path true).out ≠ [] ↔ 0 < ofs) ∧
    pager_links "[prev]".toList (cgit_print_log isspace E get_sha1 setup_revisions ctx st tip
        ofs cnt grep pattern path true).out = (if 0 < ofs then [ofs - cnt] else []) := by
  obtain ⟨_, h2, _⟩ := cgit_print_log_paged isspace E get_sha1 setup_revisions ctx st tip
    ofs cnt grep pattern path true _ rfl
  simp only [true_and] at h2
  rw [h2]
  constructor
  · split <;> simp [*]
  · rfl

/-- C8 fails as stated: at offset 10 with count 50 the `[prev]` link is
given the offset -40, not `max 0 (10 - 50) = 0`. -/
theorem cgit_print_log_prev_counterexample :
    pager_links "[prev]".toList (cgit_print_log (fun c => c == ' ') idle_engine (fun _ => 1)
        (fun _ => RevInfo.mk (List.replicate 12 sample_commit) none) sample_ctx
        (Counters.mk 0 0 0) none 10 50 none none none true).out = [-40] ∧
    ¬ (pager_links "[prev]".toList (cgit_print_log (fun c => c == ' ') idle_engine (fun _ => 1)
        (fun _ => RevInfo.mk (List.replicate 12 sample_commit) none) sample_ctx
        (Counters.mk 0 0 0) none 10 50 none none none true).out = [max 0 ((10 : Int) - 50)]) := by
  have h := (cgit_print_log_paged (fun c => c == ' ') idle_engine (fun _ => 1)
    (fun _ => RevInfo.mk (List.replicate 12 sample_commit) none) sample_ctx
    (Counters.mk 0 0 0) none 10 50 none none none true _ rfl).2.1
  rw [h]
  decide

/-! ## Properties of the table rows -/

theorem fill_loop_width (E : GraphEngine) (cols : Int) (g : E.State) (hp : E.pending g) :
    ∀ r ∈ (fill_loop E cols g hp).rows, r.width = 2 + cols := by
  generalize hn : E.fill_rank g = n
  induction n using Nat.strong_induction_on generalizing g with
  | _ n ih =>
    rw [fill_loop]
    by_cases h : (E.graph_next_line g).shown_commit_line = false
    · simp only [h, dite_true]
      intro r hr
      simp only [List.mem_cons] at hr
      rcases hr with rfl | hr
      · simp only [Row.width, List.map_cons, List.map_nil, List.sum_cons, List.sum_nil]
        omega
      · exact ih _ (by rw [← hn]; exact (E.fill_dec g hp h).2) _ _ rfl r hr
    · simp [h]

theorem stat_cells_width (ctx : Ctx) (c : Commit) (st : Counters) :
    ((stat_cells ctx c st).2.map Cell.colspan).sum = print_commit_cols ctx - 2 := by
  unfold stat_cells print_commit_cols
  cases ctx.enable_log_filecount <;> cases ctx.enable_log_linecount <;> simp

/-- `print_commit` without a graph. -/
theorem print_commit_none (isspace : Char → Bool) (E : GraphEngine) (ctx : Ctx) (c : Commit)
    (st : Counters) :
    print_commit isspace E ctx c none st =
      PrintResult.mk none (stat_cells ctx c st).1 []
        (Row.mk (if ctx.showmsg then some "logheader".toList else none)
          ([Cell.mk false none 1 [Html.age c.sha1 c.date]] ++ [] ++
           [Cell.mk false (if ctx.showmsg then some "logsubject".toList else none) 1
              (Html.commit_link c.subject none ctx.head c.sha1 ::
                show_commit_decorations ctx.head c.sha1 c.decorations),
            Cell.mk false none 1 [Html.html_txt c.author]] ++ (stat_cells ctx c st).2))
        (if ctx.showmsg then
          some (Row.mk (some "nohover".toList)
            ([Cell.mk false none 1 []] ++ [] ++
             [Cell.mk false (some "logmsg".toList) (print_commit_cols ctx)
                [Html.html "\n".toList, Html.html_txt (build_msgbuf isspace ctx c)]]))
         else none) := by
  unfold print_commit
  cases h : ctx.showmsg <;> simp

/-- `print_commit` with a graph in state `g`. -/
theorem print_commit_some (isspace : Char → Bool) (E : GraphEngine) (ctx : Ctx) (c : Commit)
    (g : E.Pending) (st : Counters) :
    print_commit isspace E ctx c (some g) st =
      PrintResult.mk
        (some (pad_loop E
          (if ctx.showmsg then count_msg_lines (build_msgbuf isspace ctx c) 1 else 0)
          (fill_loop E (print_commit_cols ctx) g.1 g.2).state []).state)
        (stat_cells ctx c st).1
        (fill_loop E (print_commit_cols ctx) g.1 g.2).rows
        (Row.mk (if ctx.showmsg then some "logheader".toList else none)
          ([Cell.mk false none 1 [Html.age c.sha1 c.date]] ++
           [Cell.mk false (some "commitgraph".toList) 1
              [Html.graph (fill_loop E (print_commit_cols ctx) g.1 g.2).graphbuf]] ++
           [Cell.mk false (if ctx.showmsg then some "logsubject".toList else none) 1
              (Html.commit_link c.subject none ctx.head c.sha1 ::
                show_commit_decorations ctx.head c.sha1 c.decorations),
            Cell.mk false none 1 [Html.html_txt c.author]] ++ (stat_cells ctx c st).2))
        (some (Row.mk (some "nohover".toList)
          ([Cell.mk false none 1 []] ++
           [Cell.mk false (some "commitgraph".toList) 1
              (pad_loop E
                (if ctx.showmsg then count_msg_lines (build_msgbuf isspace ctx c) 1 else 0)
                (fill_loop E (print_commit_cols ctx) g.1 g.2).state []).out] ++
           [Cell.mk false (if ctx.showmsg then some "logmsg".toList else none)
              (print_commit_cols ctx)
              [Html.html "\n".toList, Html.html_txt (build_msgbuf isspace ctx c)]]))) := by
  unfold print_commit
  simp

/-- The rows of `print_commit` with their widths: filler rows exist only
with a graph; a second row is written exactly when there is a graph or
messages are shown. -/
theorem print_commit_rows (isspace : Char → Bool) (E : GraphEngine) (ctx : Ctx) (c : Commit)
    (graph : Option E.Pending) (st : Counters) :
    (∀ r ∈ (print_commit isspace E ctx c graph st).filler,
      graph.isSome = true ∧ r.width = 2 + print_commit_cols ctx) ∧
    (print_commit isspace E ctx c graph st).first.width =
      (if graph.isSome then 1 else 0) + 1 + print_commit_cols ctx ∧
    ((print_commit isspace E ctx c graph st).second.isSome = (graph.isSome || ctx.showmsg)) ∧
    (∀ r ∈ (print_commit isspace E ctx c graph st).second,
      r.width = (if graph.isSome then 1 else 0) + 1 + print_commit_cols ctx) := by
  have hs := stat_cells_width ctx c st
  cases graph with
  | none =>
    rw [print_commit_none]
    refine ⟨by simp, ?_, ?_, ?_⟩
    · simp only [Row.width, List.map_append, List.sum_append, hs]
      simp
      omega
    · cases ctx.showmsg <;> simp
    · intro r hr
      cases hm : ctx.showmsg
      · simp [hm] at hr
      · simp [hm] at hr
        subst hr
        simp [Row.width]
  | some g =>
    rw [print_commit_some]
    refine ⟨fun r hr => ⟨rfl, fill_loop_width E _ g.1 g.2 r hr⟩, ?_, by simp, ?_⟩
    · simp only [Row.width, List.map_append, List.sum_append, hs]
      simp
      omega
    · intro r hr
      simp only [Option.mem_def, Option.some.injEq] at hr
      subst hr
      simp [Row.width]
      omega

/-- C5 (as amended): `print_commit` writes a second row exactly when
messages are shown or the graph is enabled, whatever the engine reports
about the commit.  Without a graph there are no filler rows: the commit is
one row with messages off, and two rows with messages on, the second made of
the empty age cell and the message cell, with no graph cell. -/
theorem print_commit_second_row (isspace : Char → Bool) (E : GraphEngine) (ctx : Ctx)
    (c : Commit) (graph : Option E.Pending) (st : Counters) :
    ((print_commit isspace E ctx c graph st).second.isSome = true ↔
      (ctx.showmsg = true ∨ graph.isSome = true)) ∧
    (print_commit isspace E ctx c graph st).rows.length =
      (print_commit isspace E ctx c graph st).filler.length + 1 +
        (if ctx.showmsg = true ∨ graph.isSome = true then 1 else 0) ∧
    (print_commit isspace E ctx c none st).filler = [] ∧
    (print_commit isspace E ctx c none st).rows.length = (if ctx.showmsg then 2 else 1) ∧
    (print_commit isspace E ctx c none st).second =
      (if ctx.showmsg then
        some (Row.mk (some "nohover".toList)
          [Cell.mk false none 1 [],
           Cell.mk false (some "logmsg".toList) (print_commit_cols ctx)
             [Html.html "\n".toList, Html.html_txt (build_msgbuf isspace ctx c)]])
       else none) := by
  obtain ⟨_, _, r3, _⟩ := print_commit_rows isspace E ctx c graph st
  refine ⟨?_, ?_, ?_, ?_, ?_⟩
  · rw [r3]
    cases graph.isSome <;> cases ctx.showmsg <;> simp
  · have : (print_commit isspace E ctx c graph st).second.toList.length =
        (if ctx.showmsg = true ∨ graph.isSome = true then 1 else 0) := by
      cases hsec : (print_commit isspace E ctx c graph st).second with
      | none =>
        rw [hsec] at r3
        cases hgs : graph.isSome <;> cases hm : ctx.showmsg <;> simp [hgs, hm] at r3 ⊢
      | some r =>
        rw [hsec] at r3
        cases hgs : graph.isSome <;> cases hm : ctx.showmsg <;> simp [hgs, hm] at r3 ⊢
    simp only [PrintResult.rows, List.length_append, List.length_singleton, this]
  · rw [print_commit_none]
  · rw [print_commit_none]
    cases ctx.showmsg <;> simp [PrintResult.rows]
  · rw [print_commit_none]
    cases ctx.showmsg <;> simp

theorem fill_loop_no_fillers (fin : Nat → Bool) (bound : Nat)
    (hb : ∀ k, bound ≤ k → fin k = true) (cols : Int) :
    (fill_loop (synth_engine 0 fin bound hb) cols (synth_start 0 fin bound hb).1
      (synth_start 0 fin bound hb).2).state = (1 : Nat) ∧
    (fill_loop (synth_engine 0 fin bound hb) cols (synth_start 0 fin bound hb).1
      (synth_start 0 fin bound hb).2).rows = [] := by
  rw [fill_loop]
  simp [synth_engine, synth_start]

/-- C5 fails as stated: with the graph enabled, messages off and an engine
that reports the commit finished (no padding pending), `print_commit` still
writes the second row, with an empty graph cell and an empty message cell,
and the commit takes two rows. -/
theorem print_commit_second_row_counterexample :
    graph_ctx.showmsg = false ∧
    idle_engine.graph_is_commit_finished
      (fill_loop idle_engine (print_commit_cols graph_ctx) idle_start.1 idle_start.2).state
        = true ∧
    (print_commit (fun c => c == ' ') idle_engine graph_ctx sample_commit (some idle_start)
      (Counters.mk 0 0 0)).second =
      some (Row.mk (some "nohover".toList)
        [Cell.mk false none 1 [],
         Cell.mk false (some "commitgraph".toList) 1 [],
         Cell.mk false none 2 [Html.html "\n".toList, Html.html_txt []]]) ∧
    (print_commit (fun c => c == ' ') idle_engine graph_ctx sample_commit (some idle_start)
      (Counters.mk 0 0 0)).rows.length = 2 := by
  have hpad : (pad_loop idle_engine 0
      (fill_loop idle_engine (print_commit_cols graph_ctx) idle_start.1 idle_start.2).state
      []).out = [] := by
    rw [pad_loop]
    simp [idle_engine, synth_engine]
  refine ⟨rfl, rfl, ?_, ?_⟩
  · rw [print_commit_some]
    have hs : graph_ctx.showmsg = false := rfl
    simp only [hs, Bool.false_eq_true, if_false, hpad, build_msgbuf]
    rfl
  · rw [print_commit_some]
    simp [PrintResult.rows, idle_start, idle_engine, (fill_loop_no_fillers _ _ _ _).2]

/-! ## Properties of the graph padding -/

end Cgit
